import Mathlib

/-!
Verification development for a from-scratch C++ Transformer forward pass
(multi-head self-attention, feed-forward sublayers, residual + layer
normalization, encoder/decoder layers, next-token prediction).

The numeric core is embedded shallowly over the exact reals: the C++
`float` type is modelled by `ℝ`, `std::exp` by `Real.exp`, `std::sqrt`
by `Real.sqrt`.  The C++ `Vector`/`Matrix` typedefs (nested
`std::vector<float>`) are modelled by `Vec := List ℝ` and
`Mat := List (List ℝ)` (the names `Vector`/`Matrix` are taken by the
library).  Out-of-range reads, which are undefined behaviour in the
source, are modelled by `List.getD` with default `0` (resp. `[]`); all
well-formed call sites stay in range.  Loops that build a fresh
container are translated to maps over `List.range`.
-/

noncomputable section

abbrev Vec := List ℝ
abbrev Mat := List (List ℝ)

namespace Utils

/-- dotProduct: sum of elementwise products (the source loop runs over
`a.size()` indices; call sites use equal-length vectors). -/
def dotProduct (a b : Vec) : ℝ :=
  (List.zipWith (fun x y => x * y) a b).sum

/-- matMul (vector * matrix overload): `result[i] = Σ_j vec[j] * matrix[j][i]`
with `i` ranging over `matrix[0].size()` and `j` over `vec.size()`. -/
def matMul (vec : Vec) (matrix : Mat) : Vec :=
  (List.range (matrix.headD []).length).map (fun i =>
    ((List.range vec.length).map (fun j =>
      vec.getD j 0 * (matrix.getD j []).getD i 0)).sum)

/-- add: elementwise sum over `a.size()` indices. -/
def add (a b : Vec) : Vec :=
  List.zipWith (fun x y => x + y) a b

/-- maxScore of softmax: `*std::max_element(scores.begin(), scores.end())`,
the maximum of the list (undefined on an empty range; modelled as a fold
of `max` over the whole list starting from the first element). -/
def maxScoreOf (scores : Vec) : ℝ :=
  scores.foldl max (scores.headD 0)

/-- expScores of softmax: `exp(score - maxScore)` per element. -/
def expScoresOf (scores : Vec) : Vec :=
  scores.map (fun s => Real.exp (s - maxScoreOf scores))

/-- sumExpScores of softmax: `std::accumulate` of the exponentials. -/
def sumExpScoresOf (scores : Vec) : ℝ :=
  (expScoresOf scores).sum

/-- softmax: `result[i] = expScores[i] / sumExpScores`. -/
def softmax (scores : Vec) : Vec :=
  (expScoresOf scores).map (fun e => e / sumExpScoresOf scores)

/-- layerNorm: subtract the arithmetic mean, divide by
`sqrt(variance + epsilon)` where `variance` is the population variance
(divide by `N`), scale by `gamma`, shift by `beta`.  The source gives
`epsilon` the default value `1e-5`; every call site uses the default,
and here it is passed explicitly. -/
def layerNorm (input gamma beta : Vec) (epsilon : ℝ) : Vec :=
  let mean := input.sum / (input.length : ℝ)
  let variance := (input.map (fun v => (v - mean) * (v - mean))).sum / (input.length : ℝ)
  (List.range input.length).map (fun i =>
    gamma.getD i 0 * (input.getD i 0 - mean) / Real.sqrt (variance + epsilon) + beta.getD i 0)

end Utils

/-! ### Generic list lemmas used throughout -/

lemma getD_range_map {α : Type} (f : ℕ → α) (n i : ℕ) (d : α) (h : i < n) :
    ((List.range n).map f).getD i d = f i := by
  have hl : i < ((List.range n).map f).length := by simpa using h
  rw [List.getD_eq_getElem _ _ hl]
  simp

lemma getD_map_of_lt {α β : Type} (f : α → β) (l : List α) (i : ℕ) (d : α) (d' : β)
    (h : i < l.length) :
    (l.map f).getD i d' = f (l.getD i d) := by
  have hl : i < (l.map f).length := by simpa using h
  rw [List.getD_eq_getElem _ _ hl, List.getD_eq_getElem _ _ h]
  simp

lemma getD_mem_of_lt (l : List ℝ) (m : ℕ) (h : m < l.length) : l.getD m 0 ∈ l := by
  rw [List.getD_eq_getElem _ _ h]
  exact List.getElem_mem h

lemma list_sum_map_div (l : List ℝ) (s : ℝ) :
    (l.map (fun x => x / s)).sum = l.sum / s := by
  induction l with
  | nil => simp
  | cons x t ih => simp [ih, add_div]

lemma list_sum_pos_of_forall_pos (l : List ℝ) (hne : l ≠ [])
    (hpos : ∀ x ∈ l, 0 < x) : 0 < l.sum := by
  induction l with
  | nil => exact absurd rfl hne
  | cons x t ih =>
    rcases List.eq_nil_or_concat t with ht | _
    · subst ht; simpa using hpos x (by simp)
    · have hx : 0 < x := hpos x (by simp)
      have ht' : t ≠ [] := by
        rintro rfl
        simp_all
      have := ih ht' (fun y hy => hpos y (by simp [hy]))
      simpa using add_pos hx this

/-! ### Facts about the softmax maximum fold -/

lemma foldl_max_le_init (l : List ℝ) : ∀ a : ℝ, a ≤ l.foldl max a := by
  induction l with
  | nil => intro a; simp
  | cons x t ih =>
    intro a
    calc a ≤ max a x := le_max_left a x
    _ ≤ t.foldl max (max a x) := ih (max a x)
    _ = (x :: t).foldl max a := by simp

lemma foldl_max_le_of_mem (l : List ℝ) : ∀ (a x : ℝ), x ∈ l → x ≤ l.foldl max a := by
  induction l with
  | nil => intro a x hx; simp at hx
  | cons y t ih =>
    intro a x hx
    rcases List.mem_cons.mp hx with rfl | hx'
    · calc x ≤ max a x := le_max_right a x
      _ ≤ t.foldl max (max a x) := foldl_max_le_init t (max a x)
      _ = (x :: t).foldl max a := by simp
    · simpa using ih (max a y) x hx'

lemma foldl_max_mem (l : List ℝ) : ∀ a : ℝ, l.foldl max a = a ∨ l.foldl max a ∈ l := by
  induction l with
  | nil => intro a; left; rfl
  | cons x t ih =>
    intro a
    have h : (x :: t).foldl max a = t.foldl max (max a x) := by simp
    rcases ih (max a x) with heq | hmem
    · rcases max_choice a x with hax | hax
      · left; rw [h, heq, hax]
      · right; rw [h, heq, hax]; simp
    · right; rw [h]; exact List.mem_cons_of_mem x hmem

lemma maxScoreOf_mem (v : Vec) (hv : v ≠ []) : Utils.maxScoreOf v ∈ v := by
  unfold Utils.maxScoreOf
  rcases foldl_max_mem v (v.headD 0) with heq | hmem
  · rw [heq]
    cases v with
    | nil => exact absurd rfl hv
    | cons x t => simp
  · exact hmem

lemma le_maxScoreOf (v : Vec) (x : ℝ) (hx : x ∈ v) : x ≤ Utils.maxScoreOf v :=
  foldl_max_le_of_mem v (v.headD 0) x hx

/-! ### Softmax facts -/

lemma softmax_length (v : Vec) : (Utils.softmax v).length = v.length := by
  simp [Utils.softmax, Utils.expScoresOf]

lemma sumExpScoresOf_pos (v : Vec) (hv : v ≠ []) : 0 < Utils.sumExpScoresOf v := by
  apply list_sum_pos_of_forall_pos
  · simp [Utils.expScoresOf, hv]
  · intro x hx
    simp only [Utils.expScoresOf, List.mem_map] at hx
    obtain ⟨s, _, rfl⟩ := hx
    exact Real.exp_pos _

lemma softmax_pos (v : Vec) (hv : v ≠ []) : ∀ x ∈ Utils.softmax v, 0 < x := by
  intro x hx
  simp only [Utils.softmax, List.mem_map] at hx
  obtain ⟨e, he, rfl⟩ := hx
  simp only [Utils.expScoresOf, List.mem_map] at he
  obtain ⟨s, _, rfl⟩ := he
  exact div_pos (Real.exp_pos _) (sumExpScoresOf_pos v hv)

lemma softmax_sum_eq_one (v : Vec) (hv : v ≠ []) : (Utils.softmax v).sum = 1 := by
  unfold Utils.softmax
  rw [list_sum_map_div]
  exact div_self (ne_of_gt (sumExpScoresOf_pos v hv))

/-- C4: for every non-empty score vector, `Utils.softmax` returns a vector of
the same length whose entries are non-negative and sum to exactly 1 (the
floating-point tolerance of the claim is exact equality over `ℝ`); the value
subtracted before exponentiating is the maximum element of the input; the
normalizing sum of exponentials is strictly positive (never zero); and each
entry equals `exp(v[i] - max) / Σ_j exp(v[j] - max)`. -/
theorem softmax_prob_distribution (v : Vec) (hv : v ≠ []) :
    (Utils.softmax v).length = v.length ∧
    (∀ x ∈ Utils.softmax v, 0 ≤ x) ∧
    (Utils.softmax v).sum = 1 ∧
    Utils.maxScoreOf v ∈ v ∧
    (∀ x ∈ v, x ≤ Utils.maxScoreOf v) ∧
    0 < Utils.sumExpScoresOf v ∧
    ∀ i, i < v.length →
      (Utils.softmax v).getD i 0 =
        Real.exp (v.getD i 0 - Utils.maxScoreOf v) / Utils.sumExpScoresOf v := by
  refine ⟨softmax_length v, fun x hx => le_of_lt (softmax_pos v hv x hx),
    softmax_sum_eq_one v hv, maxScoreOf_mem v hv, fun x hx => le_maxScoreOf v x hx,
    sumExpScoresOf_pos v hv, ?_⟩
  intro i hi
  unfold Utils.softmax
  rw [getD_map_of_lt _ _ i 0 0 (by simpa [Utils.expScoresOf] using hi)]
  unfold Utils.expScoresOf
  rw [getD_map_of_lt _ _ i 0 0 hi]

theorem softmax_prob_distribution_witness :
    ([(0 : ℝ)] ≠ ([] : Vec)) ∧
    ((Utils.softmax [(0 : ℝ)]).length = 1 ∧
    (∀ x ∈ Utils.softmax [(0 : ℝ)], 0 ≤ x) ∧
    (Utils.softmax [(0 : ℝ)]).sum = 1 ∧
    Utils.maxScoreOf [(0 : ℝ)] ∈ [(0 : ℝ)] ∧
    (∀ x ∈ [(0 : ℝ)], x ≤ Utils.maxScoreOf [(0 : ℝ)]) ∧
    0 < Utils.sumExpScoresOf [(0 : ℝ)] ∧
    ∀ i, i < ([(0 : ℝ)] : Vec).length →
      (Utils.softmax [(0 : ℝ)]).getD i 0 =
        Real.exp (([(0 : ℝ)] : Vec).getD i 0 - Utils.maxScoreOf [(0 : ℝ)]) /
          Utils.sumExpScoresOf [(0 : ℝ)]) :=
  ⟨by simp, softmax_prob_distribution [(0 : ℝ)] (by simp)⟩

/-! ### Shift invariance of softmax -/

lemma foldl_max_map_add (l : List ℝ) : ∀ (a c : ℝ),
    (l.map (fun x => x + c)).foldl max (a + c) = l.foldl max a + c := by
  induction l with
  | nil => intro a c; simp
  | cons x t ih =>
    intro a c
    simp only [List.map_cons, List.foldl_cons]
    rw [max_add_add_right a x c, ih]

lemma maxScoreOf_map_add (v : Vec) (c : ℝ) (hv : v ≠ []) :
    Utils.maxScoreOf (v.map (fun x => x + c)) = Utils.maxScoreOf v + c := by
  cases v with
  | nil => exact absurd rfl hv
  | cons x t =>
    unfold Utils.maxScoreOf
    simpa using foldl_max_map_add t x c

lemma expScoresOf_map_add (v : Vec) (c : ℝ) (hv : v ≠ []) :
    Utils.expScoresOf (v.map (fun x => x + c)) = Utils.expScoresOf v := by
  unfold Utils.expScoresOf
  rw [maxScoreOf_map_add v c hv, List.map_map]
  apply List.map_congr_left
  intro x _
  simp only [Function.comp_apply]
  ring_nf

/-- C5: `Utils.softmax` is invariant under adding a constant to every element
of a non-empty input vector. -/
theorem softmax_shift_invariant (v : Vec) (c : ℝ) (hv : v ≠ []) :
    Utils.softmax (v.map (fun x => x + c)) = Utils.softmax v := by
  unfold Utils.softmax Utils.sumExpScoresOf
  rw [expScoresOf_map_add v c hv]

theorem softmax_shift_invariant_witness :
    ([(0 : ℝ)] ≠ ([] : Vec)) ∧
    Utils.softmax (([(0 : ℝ)] : Vec).map (fun x => x + 1)) = Utils.softmax [(0 : ℝ)] :=
  ⟨by simp, softmax_shift_invariant [(0 : ℝ)] 1 (by simp)⟩

/-! ### Layer normalization -/

/-- specArithMean, written from the spec's words for the refinement statement
of the layerNorm contract: the arithmetic mean of the input. -/
def specArithMean (v : Vec) : ℝ := v.sum / (v.length : ℝ)

/-- specPopulationVariance, written from the spec's words: the sum of squared
deviations from the mean divided by `N` (not `N - 1`). -/
def specPopulationVariance (v : Vec) : ℝ :=
  (v.map (fun x => (x - specArithMean v) * (x - specArithMean v))).sum / (v.length : ℝ)

lemma layerNorm_length (input gamma beta : Vec) (epsilon : ℝ) :
    (Utils.layerNorm input gamma beta epsilon).length = input.length := by
  simp [Utils.layerNorm]

/-- C6: for every non-empty input and `gamma`/`beta` of matching length,
`Utils.layerNorm input gamma beta 1e-5` has the length of `input` and its
`i`-th entry equals
`gamma[i] * (input[i] - mean) / sqrt(variance + 1e-5) + beta[i]`, where
`mean` is the arithmetic mean and `variance` the population variance
(divide by `N`, not `N - 1`). -/
theorem layerNorm_formula (input gamma beta : Vec) (hne : input ≠ [])
    (hg : gamma.length = input.length) (hb : beta.length = input.length) :
    (Utils.layerNorm input gamma beta 1e-5).length = input.length ∧
    ∀ i, i < input.length →
      (Utils.layerNorm input gamma beta 1e-5).getD i 0 =
        gamma.getD i 0 * (input.getD i 0 - specArithMean input) /
          Real.sqrt (specPopulationVariance input + 1e-5) + beta.getD i 0 := by
  refine ⟨layerNorm_length input gamma beta 1e-5, ?_⟩
  intro i hi
  unfold Utils.layerNorm specPopulationVariance specArithMean
  rw [getD_range_map _ _ i 0 hi]

theorem layerNorm_formula_witness :
    (([(1 : ℝ), 3] : Vec) ≠ [] ∧ ([(2 : ℝ), 2] : Vec).length = 2 ∧
      ([(5 : ℝ), 7] : Vec).length = 2) ∧
    ((Utils.layerNorm [(1 : ℝ), 3] [2, 2] [5, 7] 1e-5).length = 2 ∧
    ∀ i, i < ([(1 : ℝ), 3] : Vec).length →
      (Utils.layerNorm [(1 : ℝ), 3] [2, 2] [5, 7] 1e-5).getD i 0 =
        ([(2 : ℝ), 2] : Vec).getD i 0 *
            (([(1 : ℝ), 3] : Vec).getD i 0 - specArithMean [(1 : ℝ), 3]) /
          Real.sqrt (specPopulationVariance [(1 : ℝ), 3] + 1e-5) +
          ([(5 : ℝ), 7] : Vec).getD i 0) :=
  ⟨⟨by simp, by simp, by simp⟩,
    layerNorm_formula [(1 : ℝ), 3] [2, 2] [5, 7] (by simp) (by simp) (by simp)⟩

/-- C10: on a constant non-empty input the population variance is zero, the
`epsilon` term keeps the divisor `sqrt(0 + 1e-5)` nonzero, every deviation
from the mean vanishes, and `Utils.layerNorm` returns exactly `beta`. -/
theorem layerNorm_constant_eq_beta (n : ℕ) (c : ℝ) (gamma beta : Vec)
    (hn : n ≠ 0) (hb : beta.length = n) :
    Utils.layerNorm (List.replicate n c) gamma beta 1e-5 = beta := by
  have hnR : (n : ℝ) ≠ 0 := Nat.cast_ne_zero.mpr hn
  have hmean : (List.replicate n c).sum / ((List.replicate n c).length : ℝ) = c := by
    rw [List.sum_replicate, List.length_replicate, nsmul_eq_mul]
    field_simp
  unfold Utils.layerNorm
  simp only []
  rw [hmean]
  have hvar : ((List.replicate n c).map (fun v => (v - c) * (v - c))).sum /
      ((List.replicate n c).length : ℝ) = 0 := by
    rw [List.map_replicate]
    simp
  rw [hvar]
  apply List.ext_getElem
  · simp [hb]
  · intro i h1 h2
    have hi : i < n := hb ▸ h2
    have hgd : ((List.range (List.replicate n c).length).map (fun i =>
        gamma.getD i 0 * ((List.replicate n c).getD i 0 - c) /
          Real.sqrt (0 + 1e-5) + beta.getD i 0))[i] =
        gamma.getD i 0 * ((List.replicate n c).getD i 0 - c) /
          Real.sqrt (0 + 1e-5) + beta.getD i 0 := by
      simp
    have hrep : i < (List.replicate n c).length := by simpa using hi
    rw [hgd, List.getD_eq_getElem _ _ hrep, List.getElem_replicate,
      List.getD_eq_getElem beta 0 h2]
    ring

theorem layerNorm_constant_eq_beta_witness :
    ((2 : ℕ) ≠ 0 ∧ ([(4 : ℝ), 9] : Vec).length = 2) ∧
    Utils.layerNorm (List.replicate 2 (7 : ℝ)) [1, 1] [4, 9] 1e-5 = [(4 : ℝ), 9] :=
  ⟨⟨by decide, by simp⟩,
    layerNorm_constant_eq_beta 2 7 [1, 1] [(4 : ℝ), 9] (by decide) (by simp)⟩

/-! ### Multi-head self-attention -/

structure MultiHeadSelfAttention where
  embeddingDim : ℕ
  numHeads : ℕ
  headDim : ℕ
  W_Q : Mat
  W_K : Mat
  W_V : Mat
  W_O : Mat

/-- construct: the C++ constructor `MultiHeadSelfAttention(embedDim, nHeads)`.
It performs no divisibility check: `headDim` is the truncating integer
division `embedDim / nHeads`.  The four weight matrices are filled by
`Utils::initializeMatrix` with pseudo-random values; the randomly drawn
contents are passed in as the parameters `wq wk wv wo`. -/
def MultiHeadSelfAttention.construct (embedDim nHeads : ℕ) (wq wk wv wo : Mat) :
    MultiHeadSelfAttention :=
  ⟨embedDim, nHeads, embedDim / nHeads, wq, wk, wv, wo⟩

/-- zeros r c: an all-zero r×c matrix, standing in for a concrete random
initialization in concrete instantiations. -/
def zeros (r c : ℕ) : Mat :=
  List.replicate r (List.replicate c 0)

/-- projAll: the per-position linear projections
`X_all[i] = Utils::matMul(input[i], W)` (used for `Q_all`, `K_all`, `V_all`). -/
def projAll (input : Mat) (W : Mat) : Mat :=
  input.map (fun row => Utils.matMul row W)

/-- sliceHead: head `h`'s contiguous column block,
`X_head[i][d] = X_all[i][h*headDim + d]` for `d < headDim`. -/
def MultiHeadSelfAttention.sliceHead (att : MultiHeadSelfAttention) (h : ℕ) (M : Mat) : Mat :=
  M.map (fun row => (List.range att.headDim).map (fun d => row.getD (h * att.headDim + d) 0))

/-- scoresOf: the score matrix of `scaledDotProductAttention`.  The source
first fills `scores[i][j] = dot(Q[i], K[j]) / sqrt(headDim)` for all `i, j`
and then, when `mask` is set, overwrites `scores[i][j]` with `-1e9` for every
`j ≥ i + 1`; the two loops are fused here into one definition of the same
matrix. -/
def MultiHeadSelfAttention.scoresOf (att : MultiHeadSelfAttention) (Q K : Mat)
    (mask : Bool) : Mat :=
  (List.range Q.length).map (fun i =>
    (List.range K.length).map (fun j =>
      if mask ∧ i < j then -1e9
      else Utils.dotProduct (Q.getD i []) (K.getD j []) / Real.sqrt (att.headDim : ℝ)))

/-- attentionWeights: row-wise softmax of the (possibly masked) scores. -/
def MultiHeadSelfAttention.attentionWeightsOf (att : MultiHeadSelfAttention) (Q K : Mat)
    (mask : Bool) : Mat :=
  (att.scoresOf Q K mask).map Utils.softmax

/-- scaledDotProductAttention: attention weights times `V`,
`output[i][k] = Σ_{j < attentionWeights[0].size()} attentionWeights[i][j] * V[j][k]`
with `k` ranging over `V[0].size()`. -/
def MultiHeadSelfAttention.scaledDotProductAttention (att : MultiHeadSelfAttention)
    (Q K V : Mat) (mask : Bool) : Mat :=
  let attentionWeights := att.attentionWeightsOf Q K mask
  (List.range attentionWeights.length).map (fun i =>
    (List.range (V.headD []).length).map (fun k =>
      ((List.range (attentionWeights.headD []).length).map (fun j =>
        (attentionWeights.getD i []).getD j 0 * (V.getD j []).getD k 0)).sum))

/-- headQ: head `h`'s query block of the projected input. -/
def MultiHeadSelfAttention.headQ (att : MultiHeadSelfAttention) (input : Mat) (h : ℕ) : Mat :=
  att.sliceHead h (projAll input att.W_Q)

/-- headK: head `h`'s key block of the projected input. -/
def MultiHeadSelfAttention.headK (att : MultiHeadSelfAttention) (input : Mat) (h : ℕ) : Mat :=
  att.sliceHead h (projAll input att.W_K)

/-- headV: head `h`'s value block of the projected input. -/
def MultiHeadSelfAttention.headV (att : MultiHeadSelfAttention) (input : Mat) (h : ℕ) : Mat :=
  att.sliceHead h (projAll input att.W_V)

/-- headWeights: the attention-weight matrix computed inside head `h`
(the `attentionWeights` of `scaledDotProductAttention(Q_head, K_head, V_head, mask)`). -/
def MultiHeadSelfAttention.headWeights (att : MultiHeadSelfAttention) (input : Mat)
    (mask : Bool) (h : ℕ) : Mat :=
  att.attentionWeightsOf (att.headQ input h) (att.headK input h) mask

/-- headOutput: `scaledDotProductAttention` applied to head `h`'s Q/K/V blocks. -/
def MultiHeadSelfAttention.headOutput (att : MultiHeadSelfAttention) (input : Mat)
    (mask : Bool) (h : ℕ) : Mat :=
  att.scaledDotProductAttention (att.headQ input h) (att.headK input h)
    (att.headV input h) mask

/-- forward: project to Q/K/V, run per-head scaled dot-product attention,
concatenate the head outputs back into their column blocks (writing
`concatenatedHeads[i][h*headDim + d] = headOutput[i][d]`; columns never
written keep the zero they were initialized with), and project through
`W_O` per position. -/
def MultiHeadSelfAttention.forward (att : MultiHeadSelfAttention) (input : Mat)
    (mask : Bool) : Mat :=
  let seqLen := input.length
  let concatenatedHeads : Mat := (List.range seqLen).map (fun i =>
    (List.range att.embeddingDim).map (fun c =>
      if 0 < att.headDim ∧ c < att.numHeads * att.headDim then
        ((att.headOutput input mask (c / att.headDim)).getD i []).getD (c % att.headDim) 0
      else 0))
  (List.range seqLen).map (fun i => Utils.matMul (concatenatedHeads.getD i []) att.W_O)

/-- C3 (counterexample): the construction `MultiHeadSelfAttention(5, 2)` does
not fail fast — it succeeds (the constructor is a total function with no
error path in the source) and silently truncates `headDim` to `5 / 2 = 2`,
so the two heads cover only `2 * 2 = 4` of the 5 embedding columns. -/
theorem construct_5_2_succeeds_truncating :
    (MultiHeadSelfAttention.construct 5 2 (zeros 5 5) (zeros 5 5) (zeros 5 5)
      (zeros 5 5)).headDim = 2 ∧
    (MultiHeadSelfAttention.construct 5 2 (zeros 5 5) (zeros 5 5) (zeros 5 5)
        (zeros 5 5)).numHeads *
      (MultiHeadSelfAttention.construct 5 2 (zeros 5 5) (zeros 5 5) (zeros 5 5)
        (zeros 5 5)).headDim ≠ 5 := by
  exact ⟨rfl, by decide⟩

/-- C3 (amended): constructing `MultiHeadSelfAttention` with an embedding
dimension not divisible by the number of heads performs no validation and
raises no error: it always succeeds, setting `headDim` to the truncating
integer division `embedDim / nHeads`, so the heads jointly cover
`numHeads * headDim ≠ embeddingDim` columns — silent truncation. -/
theorem construct_truncates_headDim (embedDim nHeads : ℕ) (wq wk wv wo : Mat)
    (hnd : ¬ nHeads ∣ embedDim) :
    (MultiHeadSelfAttention.construct embedDim nHeads wq wk wv wo).headDim =
      embedDim / nHeads ∧
    (MultiHeadSelfAttention.construct embedDim nHeads wq wk wv wo).numHeads *
      (MultiHeadSelfAttention.construct embedDim nHeads wq wk wv wo).headDim ≠
      embedDim := by
  refine ⟨rfl, ?_⟩
  intro h
  exact hnd ⟨embedDim / nHeads, h.symm⟩

theorem construct_truncates_headDim_witness :
    (¬ (2 : ℕ) ∣ 5) ∧
    ((MultiHeadSelfAttention.construct 5 2 (zeros 5 5) (zeros 5 5) (zeros 5 5)
        (zeros 5 5)).headDim = 5 / 2 ∧
    (MultiHeadSelfAttention.construct 5 2 (zeros 5 5) (zeros 5 5) (zeros 5 5)
        (zeros 5 5)).numHeads *
      (MultiHeadSelfAttention.construct 5 2 (zeros 5 5) (zeros 5 5) (zeros 5 5)
        (zeros 5 5)).headDim ≠ 5) :=
  ⟨by decide, construct_truncates_headDim 5 2 (zeros 5 5) (zeros 5 5) (zeros 5 5)
    (zeros 5 5) (by decide)⟩

/-! ### Feed-forward network -/

/-- relu: elementwise `max(0.0f, input[i])`. -/
def relu (input : Vec) : Vec :=
  input.map (fun v => max 0 v)

structure FeedForwardNetwork where
  W1 : Mat
  W2 : Mat
  B1 : Vec
  B2 : Vec
  inputDim : ℕ
  hiddenDim : ℕ

/-- forward of the feed-forward network:
`relu(input * W1 + B1) * W2 + B2`. -/
def FeedForwardNetwork.forward (f : FeedForwardNetwork) (input : Vec) : Vec :=
  let hidden := relu (Utils.add (Utils.matMul input f.W1) f.B1)
  Utils.add (Utils.matMul hidden f.W2) f.B2

/-! ### Encoder layer -/

structure EncoderLayer where
  selfAttention : MultiHeadSelfAttention
  ffn : FeedForwardNetwork
  ln1_gamma : Vec
  ln1_beta : Vec
  ln2_gamma : Vec
  ln2_beta : Vec
  embeddingDim : ℕ

/-- forward of an encoder layer: unmasked self-attention, residual add and
layer-normalize (`ln1`), per-position feed-forward, residual add and
layer-normalize (`ln2`).  Every sub-layer call uses layerNorm's default
`epsilon = 1e-5`. -/
def EncoderLayer.forward (layer : EncoderLayer) (input : Mat) : Mat :=
  let attnOutput := layer.selfAttention.forward input false
  let output1 := (List.range input.length).map (fun i =>
    Utils.layerNorm (Utils.add (input.getD i []) (attnOutput.getD i []))
      layer.ln1_gamma layer.ln1_beta 1e-5)
  let ffnOutput := (List.range input.length).map (fun i =>
    layer.ffn.forward (output1.getD i []))
  (List.range input.length).map (fun i =>
    Utils.layerNorm (Utils.add (output1.getD i []) (ffnOutput.getD i []))
      layer.ln2_gamma layer.ln2_beta 1e-5)

/-! ### Decoder layer -/

structure DecoderLayer where
  maskedSelfAttention : MultiHeadSelfAttention
  encoderDecoderAttention : MultiHeadSelfAttention
  ffn : FeedForwardNetwork
  ln1_gamma : Vec
  ln1_beta : Vec
  ln2_gamma : Vec
  ln2_beta : Vec
  ln3_gamma : Vec
  ln3_beta : Vec
  embeddingDim : ℕ

/-- forward of a decoder layer.  Step 1: masked self-attention over
`targetInput`, residual + `ln1`.  Step 2: the source comments call for
cross-attention with K/V from `encoderOutput`, but the code actually calls
`encoderDecoderAttention.forward(output1)` (mask defaulted to `false`),
deriving Q, K and V all from `output1`; `encoderOutput` is never read.
Step 3: feed-forward, residual + `ln3`. -/
def DecoderLayer.forward (layer : DecoderLayer) (targetInput encoderOutput : Mat) : Mat :=
  let maskedAttnOutput := layer.maskedSelfAttention.forward targetInput true
  let output1 := (List.range targetInput.length).map (fun i =>
    Utils.layerNorm (Utils.add (targetInput.getD i []) (maskedAttnOutput.getD i []))
      layer.ln1_gamma layer.ln1_beta 1e-5)
  let encDecAttnOutput := layer.encoderDecoderAttention.forward output1 false
  let output2 := (List.range targetInput.length).map (fun i =>
    Utils.layerNorm (Utils.add (output1.getD i []) (encDecAttnOutput.getD i []))
      layer.ln2_gamma layer.ln2_beta 1e-5)
  let ffnOutput := (List.range targetInput.length).map (fun i =>
    layer.ffn.forward (output2.getD i []))
  (List.range targetInput.length).map (fun i =>
    Utils.layerNorm (Utils.add (output2.getD i []) (ffnOutput.getD i []))
      layer.ln3_gamma layer.ln3_beta 1e-5)

/-- C1: the decoder layer's cross-attention sublayer actually derives Q, K
and V all from the step-1 output and never reads `encoderOutput`, so the
decoder layer's output is identical for any two encoder outputs — it does
not depend on `encoderOutput` at all, contradicting the documented contract
that Key/Value come from `encoderOutput`. -/
theorem decoderLayer_forward_ignores_encoderOutput (layer : DecoderLayer)
    (targetInput e₁ e₂ : Mat) :
    layer.forward targetInput e₁ = layer.forward targetInput e₂ := rfl

/-! ### Shape lemmas -/

lemma length_matMul (vec : Vec) (M : Mat) :
    (Utils.matMul vec M).length = (M.headD []).length := by
  simp [Utils.matMul]

lemma length_add (a b : Vec) :
    (Utils.add a b).length = min a.length b.length := by
  simp [Utils.add]

lemma length_relu (v : Vec) : (relu v).length = v.length := by
  simp [relu]

lemma length_ffn_forward (f : FeedForwardNetwork) (x : Vec) :
    (f.forward x).length = min (f.W2.headD []).length f.B2.length := by
  simp [FeedForwardNetwork.forward, length_add, length_matMul]

lemma length_mhsa_forward (att : MultiHeadSelfAttention) (input : Mat) (mask : Bool) :
    (att.forward input mask).length = input.length := by
  simp [MultiHeadSelfAttention.forward]

lemma mhsa_forward_row_length (att : MultiHeadSelfAttention) (input : Mat) (mask : Bool)
    (i : ℕ) (hi : i < input.length) :
    ((att.forward input mask).getD i []).length = (att.W_O.headD []).length := by
  unfold MultiHeadSelfAttention.forward
  simp only []
  rw [getD_range_map _ _ i [] hi]
  exact length_matMul _ _

/-- normed1: the first residual-plus-normalize result of the encoder layer
(position `i` of the source's `output1`). -/
def EncoderLayer.normed1 (layer : EncoderLayer) (input : Mat) (i : ℕ) : Vec :=
  Utils.layerNorm
    (Utils.add (input.getD i []) ((layer.selfAttention.forward input false).getD i []))
    layer.ln1_gamma layer.ln1_beta 1e-5

/-- WellFormed: the shape facts the C++ constructors establish for an encoder
layer built as `EncoderLayer(embedDim, numHeads, ffnHiddenDim)` (with
`numHeads` dividing `embedDim`): the attention sublayer was built for the
same embedding dimension, the heads exactly cover it, `W_O`'s rows have
`embeddingDim` columns, and the feed-forward output stage maps back to
`embeddingDim`. -/
def EncoderLayer.WellFormed (l : EncoderLayer) : Prop :=
  l.selfAttention.embeddingDim = l.embeddingDim ∧
  l.selfAttention.numHeads * l.selfAttention.headDim = l.embeddingDim ∧
  (l.selfAttention.W_O.headD []).length = l.embeddingDim ∧
  (l.ffn.W2.headD []).length = l.embeddingDim ∧
  l.ffn.B2.length = l.embeddingDim

/-- C9: for a well-formed encoder layer and an input of shape
`seqLen × embeddingDim`, `EncoderLayer.forward` returns a matrix of exactly
the same shape, whose row `i` equals
`layerNorm(normed1[i] + ffn(normed1[i]), ln2)` with
`normed1[i] = layerNorm(input[i] + selfAttention(input, mask=false)[i], ln1)`. -/
theorem encoderLayer_forward_shape (layer : EncoderLayer) (input : Mat)
    (hwf : layer.WellFormed)
    (hrows : ∀ i, i < input.length → (input.getD i []).length = layer.embeddingDim) :
    (layer.forward input).length = input.length ∧
    ∀ i, i < input.length →
      (layer.forward input).getD i [] =
        Utils.layerNorm
          (Utils.add (layer.normed1 input i) (layer.ffn.forward (layer.normed1 input i)))
          layer.ln2_gamma layer.ln2_beta 1e-5 ∧
      ((layer.forward input).getD i []).length = layer.embeddingDim := by
  obtain ⟨hemb, hheads, hWO, hW2, hB2⟩ := hwf
  have hrow : ∀ i, i < input.length →
      (layer.forward input).getD i [] =
        Utils.layerNorm
          (Utils.add (layer.normed1 input i) (layer.ffn.forward (layer.normed1 input i)))
          layer.ln2_gamma layer.ln2_beta 1e-5 := by
    intro i hi
    unfold EncoderLayer.forward
    simp only []
    simp only [getD_range_map _ _ i [] hi]
    rfl
  refine ⟨by simp [EncoderLayer.forward], ?_⟩
  intro i hi
  refine ⟨hrow i hi, ?_⟩
  rw [hrow i hi]
  have hn1 : (layer.normed1 input i).length = layer.embeddingDim := by
    unfold EncoderLayer.normed1
    rw [layerNorm_length, length_add, hrows i hi,
      mhsa_forward_row_length layer.selfAttention input false i hi, hWO]
    simp
  rw [layerNorm_length, length_add, hn1, length_ffn_forward, hW2, hB2]
  simp

/-- encEx: a concrete well-formed one-head, dimension-1 encoder layer used to
instantiate the shape theorem. -/
def encEx : EncoderLayer :=
  ⟨MultiHeadSelfAttention.construct 1 1 [[1]] [[1]] [[1]] [[1]],
    ⟨[[1]], [[1]], [0], [0], 1, 1⟩, [1], [0], [1], [0], 1⟩

theorem encoderLayer_forward_shape_witness :
    (encEx.WellFormed ∧
      ∀ i, i < ([[(1 : ℝ)]] : Mat).length →
        (([[(1 : ℝ)]] : Mat).getD i []).length = encEx.embeddingDim) ∧
    ((encEx.forward [[(1 : ℝ)]]).length = ([[(1 : ℝ)]] : Mat).length ∧
    ∀ i, i < ([[(1 : ℝ)]] : Mat).length →
      (encEx.forward [[(1 : ℝ)]]).getD i [] =
        Utils.layerNorm
          (Utils.add (encEx.normed1 [[(1 : ℝ)]] i)
            (encEx.ffn.forward (encEx.normed1 [[(1 : ℝ)]] i)))
          encEx.ln2_gamma encEx.ln2_beta 1e-5 ∧
      ((encEx.forward [[(1 : ℝ)]]).getD i []).length = encEx.embeddingDim) :=
  ⟨⟨by constructor <;> simp [encEx, MultiHeadSelfAttention.construct],
      by intro i hi
         have h0 : i = 0 := by simpa using hi
         subst h0
         simp [encEx]⟩,
    encoderLayer_forward_shape encEx [[(1 : ℝ)]]
      ⟨by simp [encEx, MultiHeadSelfAttention.construct],
        by simp [encEx, MultiHeadSelfAttention.construct],
        by simp [encEx, MultiHeadSelfAttention.construct],
        by simp [encEx], by simp [encEx]⟩
      (by intro i hi
          have h0 : i = 0 := by simpa using hi
          subst h0
          simp [encEx])⟩

/-! ### Encoder stack, tokenizer, embeddings, top-level model -/

structure Encoder where
  layers : List EncoderLayer

/-- forward of the encoder stack: thread the output of each layer into the
next. -/
def Encoder.forward (enc : Encoder) (input : Mat) : Mat :=
  enc.layers.foldl (fun output layer => layer.forward output) input

structure Tokenizer where
  wordToIndex : List (String × Int)
  indexToWord : List (Int × String)
  vocabSize : Int

/-- encode: lowercase the word and look it up; `-1` is the "not found"
sentinel. -/
def Tokenizer.encode (t : Tokenizer) (word : String) : Int :=
  match t.wordToIndex.lookup word.toLower with
  | some i => i
  | none => -1

/-- decode: look the index up; unknown indices decode to `"<unk>"`. -/
def Tokenizer.decode (t : Tokenizer) (index : Int) : String :=
  match t.indexToWord.lookup index with
  | some w => w
  | none => "<unk>"

structure Embeddings where
  wordEmbeddings : Mat
  positionalEncodings : Mat
  embeddingDim : ℕ
  maxSequenceLength : ℕ

/-- getEmbedding: word-embedding row plus positional-encoding row.  The
matrix contents (random word embeddings, precomputed sinusoidal positional
encodings) are whatever the structure holds. -/
def Embeddings.getEmbedding (e : Embeddings) (tokenIndex : Int) (position : ℕ) : Vec :=
  Utils.add (e.wordEmbeddings.getD tokenIndex.toNat [])
    (e.positionalEncodings.getD position [])

structure Transformer where
  tokenizer : Tokenizer
  embeddings : Embeddings
  encoder : Encoder
  outputLayerWeights : Mat
  embeddingDim : ℕ
  vocabSize : Int

/-- tokenize: the `while (iss >> word)` loop of `predictNextWord` —
whitespace-delimited splitting into the maximal non-whitespace runs
(stream extraction skips whitespace and never yields empty tokens). -/
def tokenize (sentence : String) : List String :=
  ((sentence.data.splitOnP (fun c => c.isWhitespace)).filter (fun t => t ≠ [])).map
    (fun w => String.mk w)

/-- argmaxFrom: the prediction loop
`if (probabilities[i] > maxProb) { maxProb = probabilities[i]; predictedIndex = i; }`,
carrying the index `i` of the current element, the best index so far and the
best probability so far (initialized to index 0 and probability `0.0f`). -/
def argmaxFrom (i best : ℕ) (maxProb : ℝ) : List ℝ → ℕ
  | [] => best
  | p :: rest =>
    if maxProb < p then argmaxFrom (i + 1) i p rest
    else argmaxFrom (i + 1) best maxProb rest

/-- predictedIndexOf: the index selected by the prediction loop. -/
def predictedIndexOf (probabilities : Vec) : ℕ :=
  argmaxFrom 0 0 0 probabilities

/-- predictNextWord: tokenize the sentence (returning `""` on an empty token
list), embed known tokens (a zero vector for unknown ones), run the encoder
stack, project the last position through the output layer, softmax, and
decode the index of maximum probability. -/
def Transformer.predictNextWord (m : Transformer) (sentence : String) : String :=
  let tokens := tokenize sentence
  if tokens = [] then ""
  else
    let encoderInput : Mat := (List.range tokens.length).map (fun i =>
      let tokenIdx := m.tokenizer.encode (tokens.getD i "")
      if tokenIdx = -1 then List.replicate m.embeddingDim (0 : ℝ)
      else m.embeddings.getEmbedding tokenIdx i)
    let encoderOutput := m.encoder.forward encoderInput
    let lastEncoderOutput := encoderOutput.getD (encoderOutput.length - 1) []
    let logits := Utils.matMul lastEncoderOutput m.outputLayerWeights
    let probabilities := Utils.softmax logits
    m.tokenizer.decode (Int.ofNat (predictedIndexOf probabilities))

/-- C8: a sentence with no tokens (empty or whitespace-only) makes
`predictNextWord` return the empty string, for every model state whatsoever —
in particular the encoder, embeddings and output layer are never consulted
and no error path is taken. -/
theorem predictNextWord_empty_tokens (m : Transformer) (s : String)
    (h : tokenize s = []) :
    m.predictNextWord s = "" := by
  unfold Transformer.predictNextWord
  rw [h]
  simp

/-- emptyModelEx: a degenerate concrete model used to instantiate theorems
about `predictNextWord`. -/
def emptyModelEx : Transformer :=
  ⟨⟨[], [], 0⟩, ⟨[], [], 0, 0⟩, ⟨[]⟩, [], 0, 0⟩

theorem predictNextWord_empty_tokens_witness :
    tokenize " \t " = [] ∧ emptyModelEx.predictNextWord " \t " = "" :=
  ⟨by decide, predictNextWord_empty_tokens emptyModelEx " \t " (by decide)⟩

/-! ### The prediction loop selects the least index attaining the maximum -/

lemma argmaxFrom_spec (l : List ℝ) : ∀ (i best : ℕ) (bp : ℝ),
    (argmaxFrom i best bp l = best ∧ ∀ x ∈ l, x ≤ bp) ∨
    (∃ j, j < l.length ∧ argmaxFrom i best bp l = i + j ∧ bp < l.getD j 0 ∧
      (∀ m, m < l.length → l.getD m 0 ≤ l.getD j 0) ∧
      (∀ m, m < j → l.getD m 0 < l.getD j 0)) := by
  induction l with
  | nil =>
    intro i best bp
    left
    exact ⟨rfl, by simp⟩
  | cons p rest ih =>
    intro i best bp
    by_cases hc : bp < p
    · have hstep : argmaxFrom i best bp (p :: rest) = argmaxFrom (i + 1) i p rest := by
        simp [argmaxFrom, hc]
      rcases ih (i + 1) i p with ⟨heq, hall⟩ | ⟨j, hj, heq, hlt, hmax, hfirst⟩
      · right
        refine ⟨0, by simp, by rw [hstep, heq]; omega, by simpa using hc, ?_, by omega⟩
        intro m hm
        cases m with
        | zero => simp
        | succ m' =>
          simp only [List.getD_cons_succ, List.getD_cons_zero]
          exact hall _ (getD_mem_of_lt rest m' (by simpa using hm))
      · right
        refine ⟨j + 1, by simpa using hj, by rw [hstep, heq]; omega, ?_, ?_, ?_⟩
        · simpa using lt_trans hc hlt
        · intro m hm
          cases m with
          | zero => simpa using le_of_lt hlt
          | succ m' => simpa using hmax m' (by simpa using hm)
        · intro m hm
          cases m with
          | zero => simpa using hlt
          | succ m' => simpa using hfirst m' (by omega)
    · have hstep : argmaxFrom i best bp (p :: rest) = argmaxFrom (i + 1) best bp rest := by
        simp [argmaxFrom, hc]
      have hple : p ≤ bp := le_of_not_lt hc
      rcases ih (i + 1) best bp with ⟨heq, hall⟩ | ⟨j, hj, heq, hlt, hmax, hfirst⟩
      · left
        refine ⟨by rw [hstep, heq], ?_⟩
        intro x hx
        rcases List.mem_cons.mp hx with rfl | hx'
        · exact hple
        · exact hall x hx'
      · right
        refine ⟨j + 1, by simpa using hj, by rw [hstep, heq]; omega, by simpa using hlt,
          ?_, ?_⟩
        · intro m hm
          cases m with
          | zero => simpa using le_of_lt (lt_of_le_of_lt hple hlt)
          | succ m' => simpa using hmax m' (by simpa using hm)
        · intro m hm
          cases m with
          | zero => simpa using lt_of_le_of_lt hple hlt
          | succ m' => simpa using hfirst m' (by omega)

/-- C7: the prediction step selects, over the softmax probabilities of the
logits, an in-range index whose probability is maximal, and among all
indices attaining the maximum it returns the lowest one (strict `>`
comparison keeps the first occurrence in iteration order). -/
theorem predictedIndex_least_argmax (logits : Vec) (hl : logits ≠ []) :
    predictedIndexOf (Utils.softmax logits) < (Utils.softmax logits).length ∧
    (∀ j, j < (Utils.softmax logits).length →
      (Utils.softmax logits).getD j 0 ≤
        (Utils.softmax logits).getD (predictedIndexOf (Utils.softmax logits)) 0) ∧
    (∀ j, j < (Utils.softmax logits).length →
      (Utils.softmax logits).getD j 0 =
        (Utils.softmax logits).getD (predictedIndexOf (Utils.softmax logits)) 0 →
      predictedIndexOf (Utils.softmax logits) ≤ j) := by
  have hpne : Utils.softmax logits ≠ [] := by
    have := softmax_length logits
    intro h
    rw [h] at this
    exact hl (List.eq_nil_of_length_eq_zero this.symm)
  rcases argmaxFrom_spec (Utils.softmax logits) 0 0 0 with ⟨_, hall⟩ | h
  · exfalso
    obtain ⟨x, hx⟩ := List.exists_mem_of_ne_nil _ hpne
    exact absurd (hall x hx) (not_le.mpr (softmax_pos logits hl x hx))
  · obtain ⟨j, hj, heq, _, hmax, hfirst⟩ := h
    have heq' : predictedIndexOf (Utils.softmax logits) = j := by
      simpa [predictedIndexOf] using heq
    rw [heq']
    refine ⟨hj, hmax, ?_⟩
    intro m hm hmeq
    by_contra hcon
    exact absurd hmeq (ne_of_lt (hfirst m (by omega)))

theorem predictedIndex_least_argmax_witness :
    ([(0 : ℝ)] ≠ ([] : Vec)) ∧
    (predictedIndexOf (Utils.softmax [(0 : ℝ)]) < (Utils.softmax [(0 : ℝ)]).length ∧
    (∀ j, j < (Utils.softmax [(0 : ℝ)]).length →
      (Utils.softmax [(0 : ℝ)]).getD j 0 ≤
        (Utils.softmax [(0 : ℝ)]).getD (predictedIndexOf (Utils.softmax [(0 : ℝ)])) 0) ∧
    (∀ j, j < (Utils.softmax [(0 : ℝ)]).length →
      (Utils.softmax [(0 : ℝ)]).getD j 0 =
        (Utils.softmax [(0 : ℝ)]).getD (predictedIndexOf (Utils.softmax [(0 : ℝ)])) 0 →
      predictedIndexOf (Utils.softmax [(0 : ℝ)]) ≤ j)) :=
  ⟨by simp, predictedIndex_least_argmax [(0 : ℝ)] (by simp)⟩

/-! ### Causal masking: weights-level noninterference, output-level leak -/

lemma getD_map_softmax (M : Mat) (i : ℕ) :
    (M.map Utils.softmax).getD i [] = Utils.softmax (M.getD i []) := by
  by_cases h : i < M.length
  · exact getD_map_of_lt Utils.softmax M i [] [] h
  · rw [List.getD_eq_default _ _ (by simpa using le_of_not_lt h),
      List.getD_eq_default _ _ (le_of_not_lt h)]
    rfl

lemma length_projAll (input W : Mat) : (projAll input W).length = input.length := by
  simp [projAll]

lemma length_sliceHead (att : MultiHeadSelfAttention) (h : ℕ) (M : Mat) :
    (att.sliceHead h M).length = M.length := by
  simp [MultiHeadSelfAttention.sliceHead]

lemma length_headQ (att : MultiHeadSelfAttention) (input : Mat) (h : ℕ) :
    (att.headQ input h).length = input.length := by
  simp [MultiHeadSelfAttention.headQ, length_sliceHead, length_projAll]

lemma length_headK (att : MultiHeadSelfAttention) (input : Mat) (h : ℕ) :
    (att.headK input h).length = input.length := by
  simp [MultiHeadSelfAttention.headK, length_sliceHead, length_projAll]

lemma headQ_getD (att : MultiHeadSelfAttention) (input : Mat) (h i : ℕ)
    (hi : i < input.length) :
    (att.headQ input h).getD i [] =
      (List.range att.headDim).map (fun d =>
        (Utils.matMul (input.getD i []) att.W_Q).getD (h * att.headDim + d) 0) := by
  unfold MultiHeadSelfAttention.headQ MultiHeadSelfAttention.sliceHead projAll
  rw [getD_map_of_lt _ _ i [] [] (by simpa using hi),
    getD_map_of_lt _ _ i [] [] hi]

lemma headK_getD (att : MultiHeadSelfAttention) (input : Mat) (h i : ℕ)
    (hi : i < input.length) :
    (att.headK input h).getD i [] =
      (List.range att.headDim).map (fun d =>
        (Utils.matMul (input.getD i []) att.W_K).getD (h * att.headDim + d) 0) := by
  unfold MultiHeadSelfAttention.headK MultiHeadSelfAttention.sliceHead projAll
  rw [getD_map_of_lt _ _ i [] [] (by simpa using hi),
    getD_map_of_lt _ _ i [] [] hi]

/-- C2 (amended): with `mask = true`, row `i` of every head's attention-weight
matrix is a function of input rows `0..i` only: for any two inputs of equal
length that agree at all positions `k ≤ i`, the attention weights of row `i`
coincide.  (Masked score entries `j > i` are the constant `-1e9` in both
runs, and the unmasked entries read only Query row `i` and Key rows
`j ≤ i`.)  Full output noninterference fails — see the counterexample. -/
theorem masked_attention_weights_noninterference (att : MultiHeadSelfAttention)
    (A B : Mat) (i : ℕ) (hlen : A.length = B.length)
    (hagree : ∀ k, k ≤ i → A.getD k [] = B.getD k []) (h : ℕ) :
    (att.headWeights A true h).getD i [] = (att.headWeights B true h).getD i [] := by
  unfold MultiHeadSelfAttention.headWeights MultiHeadSelfAttention.attentionWeightsOf
  rw [getD_map_softmax, getD_map_softmax]
  congr 1
  unfold MultiHeadSelfAttention.scoresOf
  by_cases hi : i < A.length
  · rw [getD_range_map _ _ i [] (by rw [length_headQ]; exact hi),
      getD_range_map _ _ i [] (by rw [length_headQ, ← hlen]; exact hi)]
    rw [length_headK, length_headK, ← hlen]
    apply List.map_congr_left
    intro j hj
    rw [List.mem_range] at hj
    by_cases hij : i < j
    · simp [hij]
    · have hji : j ≤ i := le_of_not_lt hij
      have hQ : (att.headQ A h).getD i [] = (att.headQ B h).getD i [] := by
        rw [headQ_getD att A h i hi, headQ_getD att B h i (by rw [← hlen]; exact hi),
          hagree i le_rfl]
      have hK : (att.headK A h).getD j [] = (att.headK B h).getD j [] := by
        rw [headK_getD att A h j (lt_of_le_of_lt hji hi),
          headK_getD att B h j (by rw [← hlen]; exact lt_of_le_of_lt hji hi),
          hagree j hji]
      rw [hQ, hK]
  · have hiA : A.length ≤ i := le_of_not_lt hi
    rw [List.getD_eq_default _ _ (by simpa [length_headQ] using hiA),
      List.getD_eq_default _ _ (by simpa [length_headQ, ← hlen] using hiA)]

/-- attEx: a concrete one-head, dimension-1 attention module with all four
weight matrices equal to the 1×1 identity, instantiating the causality
statements. -/
def attEx : MultiHeadSelfAttention :=
  MultiHeadSelfAttention.construct 1 1 [[1]] [[1]] [[1]] [[1]]

theorem masked_attention_weights_noninterference_witness :
    (([[(0 : ℝ)], [0]] : Mat).length = ([[(0 : ℝ)], [1]] : Mat).length ∧
      ∀ k, k ≤ 0 →
        ([[(0 : ℝ)], [0]] : Mat).getD k [] = ([[(0 : ℝ)], [1]] : Mat).getD k []) ∧
    (attEx.headWeights [[(0 : ℝ)], [0]] true 0).getD 0 [] =
      (attEx.headWeights [[(0 : ℝ)], [1]] true 0).getD 0 [] :=
  ⟨⟨by simp, fun k hk => by
      have h0 : k = 0 := Nat.le_zero.mp hk
      subst h0
      rfl⟩,
    masked_attention_weights_noninterference attEx [[(0 : ℝ)], [0]] [[(0 : ℝ)], [1]] 0
      (by simp)
      (fun k hk => by
        have h0 : k = 0 := Nat.le_zero.mp hk
        subst h0
        rfl)
      0⟩

/-- C2 (counterexample): the claimed output-level causality noninterference is
false over exact real arithmetic, because masking writes the finite constant
`-1e9` (not negative infinity) and `exp(-1e9 - max)` is strictly positive, so
a future position's Value vector keeps a strictly positive attention weight.
The two inputs `[[0],[0]]` and `[[0],[1]]` agree at row 0 and differ only at
row `j = 1 > i = 0`, yet the masked forward outputs differ at row 0. -/
theorem masked_forward_future_value_leaks :
    ([[(0 : ℝ)], [0]] : Mat).getD 0 [] = ([[(0 : ℝ)], [1]] : Mat).getD 0 [] ∧
    ((attEx.forward [[(0 : ℝ)], [0]] true).getD 0 []).getD 0 0 ≠
      ((attEx.forward [[(0 : ℝ)], [1]] true).getD 0 []).getD 0 0 := by
  refine ⟨rfl, ?_⟩
  simp only [attEx, MultiHeadSelfAttention.construct, MultiHeadSelfAttention.forward,
    MultiHeadSelfAttention.headOutput, MultiHeadSelfAttention.scaledDotProductAttention,
    MultiHeadSelfAttention.attentionWeightsOf, MultiHeadSelfAttention.scoresOf,
    MultiHeadSelfAttention.headQ, MultiHeadSelfAttention.headK, MultiHeadSelfAttention.headV,
    MultiHeadSelfAttention.sliceHead, projAll, Utils.matMul, Utils.dotProduct,
    Utils.softmax, Utils.expScoresOf, Utils.sumExpScoresOf, Utils.maxScoreOf]
  norm_num [List.range_succ]
  norm_num [Utils.softmax, Utils.expScoresOf, Utils.sumExpScoresOf, Utils.maxScoreOf,
    List.range_succ]
  positivity
